import Mathlib

/-!
Verification of the bounded streaming dedup-filter-write loop of
`scripts/create-corpus.py`.

The script's text values are modelled as lists of characters (`Text`),
records (the dicts yielded by a dataset) as association lists from field
names to texts, and the mutable state of one run (the output file, the
shared `seen_hashes` set, and the per-call `written`/`kept` counters) as the
structure `CState`.  The function `write_streaming_dataset` below is a
direct transcription of the Python function of the same name.
-/

namespace CreateCorpus

/-- A text value: the sequence of characters (code points) of a Python str. -/
abbrev Text := List Char

/-- A record pulled from a dataset: an association list of field names to
text payloads, modelling the dict interface used by `example.get(field, None)`. -/
abbrev Record := List (String × Text)

/-- Field lookup, modelling `example.get(field, None)`: the first binding of
the field name, or `none` when the field is absent. -/
def recGet (r : Record) (field : String) : Option Text :=
  match r with
  | [] => none
  | (k, v) :: rest => if k = field then some v else recGet rest field

/-- MIN_CHARS = 50: snippets shorter than this are skipped. -/
def MIN_CHARS : Nat := 50

/-- MAX_CHARS = 50000: overly large blobs are skipped. -/
def MAX_CHARS : Nat := 50000

/-- Python `str.strip()`: remove leading and trailing whitespace. -/
def pyStrip (s : Text) : Text :=
  ((s.dropWhile Char.isWhitespace).reverse.dropWhile Char.isWhitespace).reverse

/-- Python `str.replace("\r\n", "\n")`: left-to-right, non-overlapping
replacement of each CRLF pair by a single LF. -/
def replaceCRLF : Text → Text
  | [] => []
  | [c] => [c]
  | c :: d :: rest =>
    if c = '\r' ∧ d = '\n' then '\n' :: replaceCRLF rest
    else c :: replaceCRLF (d :: rest)

/-- The cleaning applied to each record's text before filtering:
`text.strip().replace("\r\n", "\n")` (line 28 of the script). -/
def cleanText (t : Text) : Text := replaceCRLF (pyStrip t)

/-- Python `normalize`: `text.strip().lower()` (line 13 of the script). -/
def normalize (text : Text) : Text := (pyStrip text).map Char.toLower

/-- Modelled from the spec: the script's `hash_text` is
`hashlib.sha1(text.encode("utf-8")).hexdigest()`, a library routine not part
of this repository.  The spec's Fingerprint invariant is that byte-identical
normalized texts produce identical fingerprints, hash collisions being an
accepted approximation; the digest is therefore modelled as an injective
fingerprint, namely the input text itself. -/
def hash_text (text : Text) : Text := text

/-- The deduplication key of a cleaned text: `hash_text(normalize(text))`
(line 37 of the script). -/
def fingerprint (t : Text) : Text := hash_text (normalize t)

/-- UTF-8 encoded byte length of a text, modelling `len(s.encode("utf-8"))`. -/
def utf8Len (s : Text) : Nat := s.foldl (fun n c => n + c.utf8Size) 0

/-- The state threaded through the loop: the entries so far written to the
output file (each entry `t` was written as `t` followed by one newline), the
shared `seen_hashes` set (as a list of fingerprints, most recent first), and
the per-call `written` and `kept` counters. -/
structure CState where
  sink : List Text
  seen : List Text
  written : Nat
  kept : Nat
deriving DecidableEq, Repr

/-- Contents of the output file: each accepted text was written by
`file_handle.write(text + "\n")`, so the file is the concatenation of the
entries each followed by a single newline character. -/
def fileContents (st : CState) : Text :=
  (st.sink.map (fun t => t ++ ['\n'])).flatten

/-- The filter chain of the loop body (lines 24 to 34 of the script): field
extraction, cleaning, the emptiness check, and the inclusive length window.
Returns the cleaned text when the record survives every filter. -/
def passesFilters (field : String) (r : Record) : Option Text :=
  match recGet r field with
  | none => none
  | some t0 =>
    if cleanText t0 = [] then none
    else if (cleanText t0).length < MIN_CHARS then none
    else if MAX_CHARS < (cleanText t0).length then none
    else some (cleanText t0)

/-- The full per-record acceptance test: the filter chain followed by the
deduplication check `h in seen_hashes` (lines 36 to 38 of the script). -/
def accepts (field : String) (seen : List Text) (r : Record) : Option Text :=
  match passesFilters field r with
  | none => none
  | some text => if fingerprint text ∈ seen then none else some text

/-- The state after accepting `text` (lines 40 to 44 of the script):
insert the fingerprint into `seen_hashes`, write `text + "\n"` to the file,
and add `len(text.encode("utf-8"))` to `written` and 1 to `kept`. -/
def acceptState (st : CState) (text : Text) : CState :=
  ⟨st.sink ++ [text], fingerprint text :: st.seen,
   st.written + utf8Len text, st.kept + 1⟩

/-- Direct transcription of the Python `write_streaming_dataset` loop: pull
records in order; a record failing any check is skipped with `continue`; an
accepted record updates the state, and the loop breaks when the running byte
total has reached `max_chars` (the byte quota) after the write. -/
def write_streaming_dataset : List Record → String → Nat → CState → CState
  | [], _, _, st => st
  | r :: rest, field, max_chars, st =>
    match accepts field st.seen r with
    | none => write_streaming_dataset rest field max_chars st
    | some text =>
      if max_chars ≤ (acceptState st text).written then acceptState st text
      else write_streaming_dataset rest field max_chars (acceptState st text)

/-- The list of texts a call writes, in the order written: the same
recursion as `write_streaming_dataset`, returning only the new entries. -/
def newOut : List Record → String → Nat → CState → List Text
  | [], _, _, _ => []
  | r :: rest, field, max_chars, st =>
    match accepts field st.seen r with
    | none => newOut rest field max_chars st
    | some text =>
      if max_chars ≤ (acceptState st text).written then [text]
      else text :: newOut rest field max_chars (acceptState st text)

/-- One call of the collector as `main` performs it: the per-call counters
start at zero, while the file and `seen_hashes` carry over from the state. -/
def runCall (call : List Record × String × Nat) (st : CState) : CState :=
  write_streaming_dataset call.1 call.2.1 call.2.2 ⟨st.sink, st.seen, 0, 0⟩

/-- A run: a sequence of collector calls sharing one file and one
`seen_hashes` set, as `main` sequences its three sources. -/
def runCalls : List (List Record × String × Nat) → CState → CState
  | [], st => st
  | c :: cs, st => runCalls cs (runCall c st)

/-- The initial state of a run: `main` recreates the output file from empty
and starts with `seen_hashes = set()` (lines 51 to 54 of the script). -/
def initState : CState := ⟨[], [], 0, 0⟩

/-! ### Unfolding lemmas for the loop -/

theorem wsd_nil (field : String) (q : Nat) (st : CState) :
    write_streaming_dataset [] field q st = st := rfl

theorem wsd_cons_none {field : String} {r : Record} {st : CState}
    (rest : List Record) (q : Nat) (h : accepts field st.seen r = none) :
    write_streaming_dataset (r :: rest) field q st =
      write_streaming_dataset rest field q st := by
  simp [write_streaming_dataset, h]

theorem wsd_cons_stop {field : String} {r : Record} {st : CState} {text : Text}
    (rest : List Record) {q : Nat} (h : accepts field st.seen r = some text)
    (hq : q ≤ (acceptState st text).written) :
    write_streaming_dataset (r :: rest) field q st = acceptState st text := by
  simp [write_streaming_dataset, h, hq]

theorem wsd_cons_go {field : String} {r : Record} {st : CState} {text : Text}
    (rest : List Record) {q : Nat} (h : accepts field st.seen r = some text)
    (hq : ¬ q ≤ (acceptState st text).written) :
    write_streaming_dataset (r :: rest) field q st =
      write_streaming_dataset rest field q (acceptState st text) := by
  simp [write_streaming_dataset, h, hq]

theorem newOut_nil (field : String) (q : Nat) (st : CState) :
    newOut [] field q st = [] := rfl

theorem newOut_cons_none {field : String} {r : Record} {st : CState}
    (rest : List Record) (q : Nat) (h : accepts field st.seen r = none) :
    newOut (r :: rest) field q st = newOut rest field q st := by
  simp [newOut, h]

theorem newOut_cons_stop {field : String} {r : Record} {st : CState} {text : Text}
    (rest : List Record) {q : Nat} (h : accepts field st.seen r = some text)
    (hq : q ≤ (acceptState st text).written) :
    newOut (r :: rest) field q st = [text] := by
  simp [newOut, h, hq]

theorem newOut_cons_go {field : String} {r : Record} {st : CState} {text : Text}
    (rest : List Record) {q : Nat} (h : accepts field st.seen r = some text)
    (hq : ¬ q ≤ (acceptState st text).written) :
    newOut (r :: rest) field q st =
      text :: newOut rest field q (acceptState st text) := by
  simp [newOut, h, hq]

/-- What acceptance of a record tells us: the record has the field, the
cleaned text survived every filter, and its fingerprint was unseen. -/
theorem accepts_some_spec {field : String} {seen : List Text} {r : Record}
    {text : Text} (h : accepts field seen r = some text) :
    ∃ t, recGet r field = some t ∧ text = cleanText t ∧ text ≠ [] ∧
      MIN_CHARS ≤ text.length ∧ text.length ≤ MAX_CHARS ∧
      fingerprint text ∉ seen := by
  unfold accepts passesFilters at h
  rcases hg : recGet r field with _ | t
  · rw [hg] at h; simp at h
  · rw [hg] at h
    by_cases h1 : cleanText t = []
    · simp [h1] at h
    · by_cases h2 : (cleanText t).length < MIN_CHARS
      · simp [h1, h2] at h
      · by_cases h3 : MAX_CHARS < (cleanText t).length
        · simp [h1, h2, h3] at h
        · by_cases h4 : fingerprint (cleanText t) ∈ seen
          · simp [h1, h2, h3, h4] at h
          · simp only [if_neg h1, if_neg h2, if_neg h3, if_neg h4] at h
            injection h with htext
            subst htext
            exact ⟨t, rfl, rfl, h1, Nat.le_of_not_lt h2, Nat.le_of_not_lt h3, h4⟩

/-! ### Structural lemmas relating the loop to its output list -/

/-- The file after a call is the file before it, extended by the new
entries of the call, in order. -/
theorem sink_newOut (ds : List Record) (field : String) (q : Nat) :
    ∀ st : CState, (write_streaming_dataset ds field q st).sink =
      st.sink ++ newOut ds field q st := by
  induction ds with
  | nil => intro st; simp [wsd_nil, newOut_nil]
  | cons r rest ih =>
    intro st
    rcases h : accepts field st.seen r with _ | text
    · rw [wsd_cons_none rest q h, newOut_cons_none rest q h, ih]
    · by_cases hq : q ≤ (acceptState st text).written
      · rw [wsd_cons_stop rest h hq, newOut_cons_stop rest h hq, acceptState]
      · rw [wsd_cons_go rest h hq, newOut_cons_go rest h hq, ih, acceptState]
        simp

/-- The running byte total grows by exactly the sum of the UTF-8 byte
lengths of the texts the call writes — the newline bytes are not counted. -/
theorem written_newOut (ds : List Record) (field : String) (q : Nat) :
    ∀ st : CState, (write_streaming_dataset ds field q st).written =
      st.written + ((newOut ds field q st).map utf8Len).sum := by
  induction ds with
  | nil => intro st; simp [wsd_nil, newOut_nil]
  | cons r rest ih =>
    intro st
    rcases h : accepts field st.seen r with _ | text
    · rw [wsd_cons_none rest q h, newOut_cons_none rest q h, ih]
    · by_cases hq : q ≤ (acceptState st text).written
      · rw [wsd_cons_stop rest h hq, newOut_cons_stop rest h hq, acceptState]
        simp
      · rw [wsd_cons_go rest h hq, newOut_cons_go rest h hq, ih, acceptState]
        simp [Nat.add_assoc]

/-- The `kept` counter grows by exactly the number of entries written. -/
theorem kept_newOut (ds : List Record) (field : String) (q : Nat) :
    ∀ st : CState, (write_streaming_dataset ds field q st).kept =
      st.kept + (newOut ds field q st).length := by
  induction ds with
  | nil => intro st; simp [wsd_nil, newOut_nil]
  | cons r rest ih =>
    intro st
    rcases h : accepts field st.seen r with _ | text
    · rw [wsd_cons_none rest q h, newOut_cons_none rest q h, ih]
    · by_cases hq : q ≤ (acceptState st text).written
      · rw [wsd_cons_stop rest h hq, newOut_cons_stop rest h hq, acceptState]
        simp
      · rw [wsd_cons_go rest h hq, newOut_cons_go rest h hq, ih, acceptState]
        simp [Nat.add_assoc, Nat.add_comm]

/-- The `seen_hashes` set gains exactly one fingerprint per entry written. -/
theorem seenLen_newOut (ds : List Record) (field : String) (q : Nat) :
    ∀ st : CState, (write_streaming_dataset ds field q st).seen.length =
      st.seen.length + (newOut ds field q st).length := by
  induction ds with
  | nil => intro st; simp [wsd_nil, newOut_nil]
  | cons r rest ih =>
    intro st
    rcases h : accepts field st.seen r with _ | text
    · rw [wsd_cons_none rest q h, newOut_cons_none rest q h, ih]
    · by_cases hq : q ≤ (acceptState st text).written
      · rw [wsd_cons_stop rest h hq, newOut_cons_stop rest h hq, acceptState]
        simp
      · rw [wsd_cons_go rest h hq, newOut_cons_go rest h hq, ih, acceptState]
        simp [Nat.add_assoc, Nat.add_comm]

/-! ### The seen set: monotonicity and distinctness -/

/-- A call only ever adds fingerprints to `seen_hashes`. -/
theorem seen_mono (ds : List Record) (field : String) (q : Nat) :
    ∀ st : CState, st.seen ⊆ (write_streaming_dataset ds field q st).seen := by
  induction ds with
  | nil => intro st; rw [wsd_nil]; exact List.Subset.refl _
  | cons r rest ih =>
    intro st
    rcases h : accepts field st.seen r with _ | text
    · rw [wsd_cons_none rest q h]; exact ih st
    · by_cases hq : q ≤ (acceptState st text).written
      · rw [wsd_cons_stop rest h hq]
        exact List.subset_cons_self _ _
      · rw [wsd_cons_go rest h hq]
        exact List.Subset.trans (List.subset_cons_self _ _) (ih (acceptState st text))

/-- A run only ever adds fingerprints to `seen_hashes`. -/
theorem run_seen_mono (calls : List (List Record × String × Nat)) :
    ∀ st : CState, st.seen ⊆ (runCalls calls st).seen := by
  induction calls with
  | nil => intro st; rw [runCalls]; exact List.Subset.refl _
  | cons c cs ih =>
    intro st
    rw [runCalls]
    refine List.Subset.trans ?_ (ih (runCall c st))
    exact seen_mono c.1 c.2.1 c.2.2 ⟨st.sink, st.seen, 0, 0⟩

/-- Fingerprints are only inserted when absent, so the seen list stays
duplicate-free: its length is the cardinality of the Python set. -/
theorem seen_nodup (ds : List Record) (field : String) (q : Nat) :
    ∀ st : CState, st.seen.Nodup →
      (write_streaming_dataset ds field q st).seen.Nodup := by
  induction ds with
  | nil => intro st hnd; rw [wsd_nil]; exact hnd
  | cons r rest ih =>
    intro st hnd
    rcases h : accepts field st.seen r with _ | text
    · rw [wsd_cons_none rest q h]; exact ih st hnd
    · obtain ⟨t, -, -, -, -, -, hfp⟩ := accepts_some_spec h
      by_cases hq : q ≤ (acceptState st text).written
      · rw [wsd_cons_stop rest h hq]
        exact List.Nodup.cons hfp hnd
      · rw [wsd_cons_go rest h hq]
        exact ih (acceptState st text) (List.Nodup.cons hfp hnd)

/-- The deduplication invariant: every entry already written has its
fingerprint in `seen_hashes`, and no two written entries share one. -/
def SinkInv (st : CState) : Prop :=
  (∀ e ∈ st.sink, fingerprint e ∈ st.seen) ∧
    st.sink.Pairwise (fun a b => fingerprint a ≠ fingerprint b)

/-- A call preserves the deduplication invariant. -/
theorem wsd_sinkInv (ds : List Record) (field : String) (q : Nat) :
    ∀ st : CState, SinkInv st →
      SinkInv (write_streaming_dataset ds field q st) := by
  induction ds with
  | nil => intro st hinv; rw [wsd_nil]; exact hinv
  | cons r rest ih =>
    intro st hinv
    rcases h : accepts field st.seen r with _ | text
    · rw [wsd_cons_none rest q h]; exact ih st hinv
    · obtain ⟨t, -, -, -, -, -, hfp⟩ := accepts_some_spec h
      have hinv' : SinkInv (acceptState st text) := by
        unfold SinkInv acceptState
        constructor
        · intro e he
          rcases List.mem_append.1 he with he | he
          · exact List.mem_cons_of_mem _ (hinv.1 e he)
          · rw [List.mem_singleton.1 he]
            exact List.mem_cons_self _ _
        · rw [List.pairwise_append]
          refine ⟨hinv.2, List.pairwise_singleton _ _, ?_⟩
          intro a ha b hb
          rw [List.mem_singleton.1 hb]
          intro heq
          exact hfp (heq ▸ hinv.1 a ha)
      by_cases hq : q ≤ (acceptState st text).written
      · rw [wsd_cons_stop rest h hq]; exact hinv'
      · rw [wsd_cons_go rest h hq]; exact ih (acceptState st text) hinv'

/-- A run preserves the deduplication invariant. -/
theorem run_sinkInv (calls : List (List Record × String × Nat)) :
    ∀ st : CState, SinkInv st → SinkInv (runCalls calls st) := by
  induction calls with
  | nil => intro st hinv; rw [runCalls]; exact hinv
  | cons c cs ih =>
    intro st hinv
    rw [runCalls]
    refine ih (runCall c st) ?_
    exact wsd_sinkInv c.1 c.2.1 c.2.2 ⟨st.sink, st.seen, 0, 0⟩ hinv

/-! ### Quota behaviour -/

/-- With a zero quota the very first accepted record already triggers the
break, so a call keeps at most one record. -/
theorem kept_q0 (ds : List Record) (field : String) :
    ∀ st : CState, (write_streaming_dataset ds field 0 st).kept ≤ st.kept + 1 := by
  induction ds with
  | nil => intro st; rw [wsd_nil]; exact Nat.le_succ st.kept
  | cons r rest ih =>
    intro st
    rcases h : accepts field st.seen r with _ | text
    · rw [wsd_cons_none rest 0 h]; exact ih st
    · have hq : 0 ≤ (acceptState st text).written := Nat.zero_le _
      rw [wsd_cons_stop rest h hq, acceptState]

/-- If the running total is below the quota and every record's cleaned text
is at most `B` bytes, the final total stays below `q + B`: the loop can
overshoot the quota only by the size of its final accepted write. -/
theorem written_overshoot (ds : List Record) (field : String) (q B : Nat) :
    ∀ st : CState,
      (∀ r ∈ ds, utf8Len (cleanText ((recGet r field).getD [])) ≤ B) →
      st.written < q →
      (write_streaming_dataset ds field q st).written < q + B := by
  induction ds with
  | nil =>
    intro st _ hlt
    rw [wsd_nil]
    exact Nat.lt_of_lt_of_le hlt (Nat.le_add_right q B)
  | cons r rest ih =>
    intro st hB hlt
    rcases h : accepts field st.seen r with _ | text
    · rw [wsd_cons_none rest q h]
      exact ih st (fun x hx => hB x (List.mem_cons_of_mem r hx)) hlt
    · obtain ⟨t, hget, htext, -, -, -, -⟩ := accepts_some_spec h
      have hb : utf8Len text ≤ B := by
        have := hB r (List.mem_cons_self r rest)
        rw [hget] at this
        rw [htext]
        exact this
      have hwr : (acceptState st text).written < q + B := by
        have : (acceptState st text).written = st.written + utf8Len text := rfl
        rw [this]
        omega
      by_cases hq : q ≤ (acceptState st text).written
      · rw [wsd_cons_stop rest h hq]; exact hwr
      · rw [wsd_cons_go rest h hq]
        exact ih (acceptState st text)
          (fun x hx => hB x (List.mem_cons_of_mem r hx))
          (Nat.lt_of_not_le hq)

/-- Every accepted write except the last leaves the running total strictly
below the quota: once the total reaches the quota, nothing more is written. -/
theorem quota_cross (ds : List Record) (field : String) (q : Nat) :
    ∀ st : CState, ∀ j : Nat, j + 1 < (newOut ds field q st).length →
      st.written +
        (((newOut ds field q st).take (j + 1)).map utf8Len).sum < q := by
  induction ds with
  | nil => intro st j hj; rw [newOut_nil] at hj; simp at hj
  | cons r rest ih =>
    intro st j hj
    rcases h : accepts field st.seen r with _ | text
    · rw [newOut_cons_none rest q h] at hj ⊢
      exact ih st j hj
    · by_cases hq : q ≤ (acceptState st text).written
      · rw [newOut_cons_stop rest h hq] at hj
        simp at hj
      · rw [newOut_cons_go rest h hq] at hj ⊢
        have hwr : st.written + utf8Len text < q := Nat.lt_of_not_le hq
        cases j with
        | zero =>
          simp [List.take_succ_cons]
          exact hwr
        | succ k =>
          rw [List.take_succ_cons, List.map_cons, List.sum_cons]
          have hk : k + 1 < (newOut rest field q (acceptState st text)).length := by
            simp at hj
            omega
          have := ih (acceptState st text) k hk
          have hacc : (acceptState st text).written = st.written + utf8Len text := rfl
          rw [hacc] at this
          omega

/-! ### Facts about the text-cleaning pipeline -/

theorem utf8Len_foldl (l : Text) :
    ∀ n : Nat, l.foldl (fun a c => a + c.utf8Size) n = n + utf8Len l := by
  induction l with
  | nil => intro n; simp [utf8Len]
  | cons c l ih =>
    intro n
    rw [List.foldl_cons, ih]
    show n + c.utf8Size + utf8Len l = n + (c :: l).foldl (fun a c => a + c.utf8Size) 0
    rw [List.foldl_cons, ih (0 + c.utf8Size)]
    omega

theorem utf8Len_cons (c : Char) (l : Text) :
    utf8Len (c :: l) = c.utf8Size + utf8Len l := by
  show (c :: l).foldl (fun a c => a + c.utf8Size) 0 = c.utf8Size + utf8Len l
  rw [List.foldl_cons, utf8Len_foldl]
  omega

theorem utf8Len_append (l m : Text) :
    utf8Len (l ++ m) = utf8Len l + utf8Len m := by
  show (l ++ m).foldl (fun a c => a + c.utf8Size) 0 = _
  rw [List.foldl_append, utf8Len_foldl]
  rfl

theorem utf8Len_replicate (n : Nat) (c : Char) :
    utf8Len (List.replicate n c) = n * c.utf8Size := by
  induction n with
  | zero => simp [utf8Len]
  | succ k ih =>
    rw [List.replicate_succ, utf8Len_cons, ih]
    ring

theorem dropWhile_replicate {p : Char → Bool} {c : Char} (hc : p c = false)
    (n : Nat) : List.dropWhile p (List.replicate n c) = List.replicate n c := by
  cases n with
  | zero => rfl
  | succ k => rw [List.replicate_succ, List.dropWhile_cons, hc]; simp

/-- Stripping a run of a single non-whitespace character is the identity. -/
theorem pyStrip_replicate {c : Char} (hc : c.isWhitespace = false) (n : Nat) :
    pyStrip (List.replicate n c) = List.replicate n c := by
  unfold pyStrip
  rw [dropWhile_replicate hc, List.reverse_replicate, dropWhile_replicate hc,
    List.reverse_replicate]

/-- Replacing CRLF pairs in a CR-free text is the identity. -/
theorem replaceCRLF_no_cr : ∀ l : Text, '\r' ∉ l → replaceCRLF l = l := by
  intro l
  induction l with
  | nil => intro _; rfl
  | cons c l ih =>
    intro hmem
    have hc : ¬ c = '\r' := fun h => hmem (h ▸ List.mem_cons_self c l)
    have hl : '\r' ∉ l := fun h => hmem (List.mem_cons_of_mem c h)
    cases l with
    | nil => rfl
    | cons d rest =>
      rw [replaceCRLF, if_neg (fun hp => hc hp.1), ih hl]

/-- `cleanText` is the identity on a run of a single non-whitespace
character (such a text has nothing to strip and no CR to replace). -/
theorem cleanText_replicate (c : Char) (hc : c.isWhitespace = false)
    (n : Nat) : cleanText (List.replicate n c) = List.replicate n c := by
  have hcr : c ≠ '\r' := by
    intro h
    rw [h] at hc
    simp [Char.isWhitespace] at hc
  unfold cleanText
  rw [pyStrip_replicate hc]
  refine replaceCRLF_no_cr _ ?_
  rw [List.mem_replicate]
  rintro ⟨-, h⟩
  exact hcr h.symm

/-- A nonempty text stays nonempty through CRLF replacement. -/
theorem replaceCRLF_ne_nil : ∀ l : Text, l ≠ [] → replaceCRLF l ≠ [] := by
  intro l hl
  match l with
  | [c] => simp [replaceCRLF]
  | c :: d :: rest =>
    rw [replaceCRLF]
    split <;> simp

/-- A CRLF pair rewrites to the same result as its bare LF tail. -/
theorem replaceCRLF_crlf (rest : Text) :
    replaceCRLF ('\r' :: '\n' :: rest) = replaceCRLF ('\n' :: rest) := by
  rw [replaceCRLF, if_pos ⟨rfl, rfl⟩]
  cases rest with
  | nil => rfl
  | cons x xs =>
    rw [replaceCRLF, if_neg]
    rintro ⟨h, -⟩
    exact absurd h (by decide)

theorem getLast?_cons_of_ne_nil {c : Char} {m : Text} (hm : m ≠ []) :
    (c :: m).getLast? = m.getLast? := by
  cases m with
  | nil => exact absurd rfl hm
  | cons d rest => exact List.getLast?_cons_cons

/-- CRLF replacement does not disturb a non-whitespace final character. -/
theorem replaceCRLF_getLast? :
    ∀ (l : Text) (c : Char), l.getLast? = some c → c.isWhitespace = false →
      (replaceCRLF l).getLast? = some c := by
  intro l
  induction l with
  | nil => intro c h _; simp at h
  | cons a l ih =>
    intro c h hc
    cases l with
    | nil =>
      simp at h
      rw [h, replaceCRLF]
      rfl
    | cons d rest =>
      rw [getLast?_cons_of_ne_nil (by simp)] at h
      by_cases hp : a = '\r' ∧ d = '\n'
      · obtain ⟨hp1, hp2⟩ := hp
        subst hp1
        subst hp2
        rw [replaceCRLF_crlf]
        exact ih c h hc
      · rw [replaceCRLF, if_neg hp]
        have hne : replaceCRLF (d :: rest) ≠ [] := replaceCRLF_ne_nil _ (by simp)
        rw [getLast?_cons_of_ne_nil hne]
        exact ih c h hc

/-- The stripped text never ends in whitespace. -/
theorem pyStrip_getLast? (s : Text) (c : Char)
    (h : (pyStrip s).getLast? = some c) : c.isWhitespace = false := by
  unfold pyStrip at h
  rw [List.getLast?_reverse] at h
  have := List.head?_dropWhile_not Char.isWhitespace
    ((s.dropWhile Char.isWhitespace).reverse)
  rw [h] at this
  exact this

/-- A nonempty cleaned text ends in a non-whitespace character, so the
newline appended by the write is the only trailing newline of the entry. -/
theorem cleanText_getLast? (t : Text) (hne : cleanText t ≠ []) :
    ∃ c, (cleanText t).getLast? = some c ∧ c.isWhitespace = false := by
  have hstrip : pyStrip t ≠ [] := by
    intro h
    apply hne
    unfold cleanText
    rw [h]
    rfl
  obtain ⟨c, hc⟩ := Option.ne_none_iff_exists'.1
    (mt List.getLast?_eq_none_iff.1 hstrip)
  have hws : c.isWhitespace = false := pyStrip_getLast? t c hc
  exact ⟨c, replaceCRLF_getLast? (pyStrip t) c hc hws, hws⟩

/-! ### Where the written entries come from -/

/-- Every entry a call writes is the cleaned (stripped, CRLF-normalized,
original-case) text of some record of its dataset, and is nonempty. -/
theorem newOut_sound (ds : List Record) (field : String) (q : Nat) :
    ∀ st : CState, ∀ e ∈ newOut ds field q st,
      ∃ r ∈ ds, ∃ t, recGet r field = some t ∧ e = cleanText t ∧ e ≠ [] := by
  induction ds with
  | nil => intro st e he; rw [newOut_nil] at he; simp at he
  | cons r rest ih =>
    intro st e he
    rcases h : accepts field st.seen r with _ | text
    · rw [newOut_cons_none rest q h] at he
      obtain ⟨r', hr', hrest⟩ := ih st e he
      exact ⟨r', List.mem_cons_of_mem r hr', hrest⟩
    · obtain ⟨t, hget, htext, hne, -, -, -⟩ := accepts_some_spec h
      by_cases hq : q ≤ (acceptState st text).written
      · rw [newOut_cons_stop rest h hq] at he
        rw [List.mem_singleton.1 he]
        exact ⟨r, List.mem_cons_self r rest, t, hget, htext, htext ▸ hne⟩
      · rw [newOut_cons_go rest h hq] at he
        rcases List.mem_cons.1 he with he | he
        · rw [he]
          exact ⟨r, List.mem_cons_self r rest, t, hget, htext, htext ▸ hne⟩
        · obtain ⟨r', hr', hrest⟩ := ih (acceptState st text) e he
          exact ⟨r', List.mem_cons_of_mem r hr', hrest⟩

/-- The records of a dataset that survive the field, emptiness and length
filters, with their cleaned texts, in dataset order — acceptance before
deduplication and quota are taken into account. -/
def acceptedTexts (ds : List Record) (field : String) : List Text :=
  ds.filterMap (passesFilters field)

/-- When no fingerprint repeats, none is already seen, and the byte quota
is never reached, the loop writes every filtered text in order. -/
theorem newOut_no_truncation (ds : List Record) (field : String) (q : Nat) :
    ∀ st : CState,
      ((acceptedTexts ds field).map fingerprint).Nodup →
      (∀ e ∈ acceptedTexts ds field, fingerprint e ∉ st.seen) →
      st.written + ((acceptedTexts ds field).map utf8Len).sum < q →
      newOut ds field q st = acceptedTexts ds field := by
  induction ds with
  | nil => intro st _ _ _; rfl
  | cons r rest ih =>
    intro st hnd hfresh hq
    rcases hp : passesFilters field r with _ | text
    · have hacc : accepts field st.seen r = none := by
        unfold accepts
        rw [hp]
      have haT : acceptedTexts (r :: rest) field = acceptedTexts rest field := by
        unfold acceptedTexts
        rw [List.filterMap_cons_none hp]
      rw [newOut_cons_none rest q hacc, haT]
      rw [haT] at hnd hfresh hq
      exact ih st hnd hfresh hq
    · have haT : acceptedTexts (r :: rest) field =
          text :: acceptedTexts rest field := by
        unfold acceptedTexts
        rw [List.filterMap_cons_some hp]
      rw [haT] at hnd hfresh hq
      have hacc : accepts field st.seen r = some text := by
        unfold accepts
        rw [hp]
        exact if_neg (hfresh text (List.mem_cons_self _ _))
      have hsum : st.written + utf8Len text +
          ((acceptedTexts rest field).map utf8Len).sum < q := by
        rw [List.map_cons, List.sum_cons] at hq
        omega
      have hq' : ¬ q ≤ (acceptState st text).written := by
        have : (acceptState st text).written = st.written + utf8Len text := rfl
        rw [this]
        omega
      rw [newOut_cons_go rest hacc hq', haT]
      congr 1
      rw [List.map_cons] at hnd
      refine ih (acceptState st text) hnd.of_cons ?_ ?_
      · intro e he
        have hne : fingerprint e ≠ fingerprint text := by
          intro heq
          have := List.rel_of_pairwise_cons hnd (List.mem_map_of_mem fingerprint he)
          exact this heq.symm
        have : fingerprint e ∉ st.seen :=
          hfresh e (List.mem_cons_of_mem text he)
        intro hmem
        rcases List.mem_cons.1 hmem with hmem | hmem
        · exact hne hmem
        · exact this hmem
      · have : (acceptState st text).written = st.written + utf8Len text := rfl
        rw [this]
        exact hsum

/-! ### The length window on single-character runs -/

/-- Feeding the collector one record whose text is `n` copies of a single
non-whitespace character: the record is kept exactly when `n` lies in the
inclusive window `[MIN_CHARS, MAX_CHARS]` of character counts. -/
theorem kept_singleton_replicate (c : Char) (hc : c.isWhitespace = false)
    (n q : Nat) :
    (write_streaming_dataset [[("content", List.replicate n c)]] "content" q
        initState).kept =
      if MIN_CHARS ≤ n ∧ n ≤ MAX_CHARS then 1 else 0 := by
  have hclean : cleanText (List.replicate n c) = List.replicate n c :=
    cleanText_replicate c hc n
  have hget : recGet [("content", List.replicate n c)] "content" =
      some (List.replicate n c) := by
    simp [recGet]
  by_cases h1 : MIN_CHARS ≤ n
  · by_cases h2 : n ≤ MAX_CHARS
    · have hne : ¬ List.replicate n c = [] := by
        rw [List.replicate_eq_nil_iff]
        unfold MIN_CHARS at h1
        omega
      have hpass : passesFilters "content" [("content", List.replicate n c)] =
          some (List.replicate n c) := by
        unfold passesFilters
        simp only [hget, hclean, List.length_replicate]
        rw [if_neg hne, if_neg (Nat.not_lt.2 h1), if_neg (Nat.not_lt.2 h2)]
      have hacc : accepts "content" initState.seen
          [("content", List.replicate n c)] = some (List.replicate n c) := by
        unfold accepts
        rw [hpass]
        exact if_neg (List.not_mem_nil _)
      rw [if_pos ⟨h1, h2⟩]
      by_cases hq : q ≤ (acceptState initState (List.replicate n c)).written
      · rw [wsd_cons_stop [] hacc hq]
        rfl
      · rw [wsd_cons_go [] hacc hq, wsd_nil]
        rfl
    · have hmax : MAX_CHARS < n := Nat.not_le.1 h2
      have hne : ¬ List.replicate n c = [] := by
        rw [List.replicate_eq_nil_iff]
        unfold MAX_CHARS at hmax
        omega
      have hpass : passesFilters "content" [("content", List.replicate n c)] =
          none := by
        unfold passesFilters
        simp only [hget, hclean, List.length_replicate]
        rw [if_neg hne, if_neg (Nat.not_lt.2 h1), if_pos hmax]
      have hacc : accepts "content" initState.seen
          [("content", List.replicate n c)] = none := by
        unfold accepts
        rw [hpass]
      rw [wsd_cons_none [] q hacc, wsd_nil,
        if_neg (fun hand => h2 hand.2)]
      rfl
  · have hmin : n < MIN_CHARS := Nat.not_le.1 h1
    have hpass : passesFilters "content" [("content", List.replicate n c)] =
        none := by
      unfold passesFilters
      simp only [hget, hclean, List.length_replicate]
      by_cases hn0 : List.replicate n c = []
      · rw [if_pos hn0]
      · rw [if_neg hn0, if_pos hmin]
    have hacc : accepts "content" initState.seen
        [("content", List.replicate n c)] = none := by
      unfold accepts
      rw [hpass]
    rw [wsd_cons_none [] q hacc, wsd_nil,
      if_neg (fun hand => h1 hand.1)]
    rfl

/-! ### Concrete inputs used by counterexamples and witnesses -/

/-- A record with a 60-character text. -/
def recB60 : Record := [("content", List.replicate 60 'b')]

/-- A record with a 50-character text of letter a. -/
def recA50 : Record := [("content", List.replicate 50 'a')]

/-- A record with a 50-character text of letter b. -/
def recB50 : Record := [("content", List.replicate 50 'b')]

/-- A record whose text field holds only whitespace. -/
def wsRec : Record := [("text", [' ', ' ', ' ', '\n', ' ', ' '])]

/-- A state whose seen set already holds one fingerprint. -/
def seedSeen : CState := ⟨[], [List.replicate 50 'c'], 0, 0⟩

/-! ### The claims -/

/-- C1, counterexample: the run processes one call with quota 1 on records
A, B, B, where the two B records have byte-identical stripped, case-folded
texts.  Record A is accepted, its 60 bytes reach the quota, and the loop
abandons the source, so zero copies of B are written — not exactly one as
the claim demands. -/
theorem claim1_counterexample :
    (runCalls [([recB60, recA50, recA50], "content", 1)] initState).sink =
        [List.replicate 60 'b'] ∧
      (runCalls [([recB60, recA50, recA50], "content", 1)] initState).sink.count
        (cleanText (List.replicate 50 'a')) = 0 := by
  decide

/-- C1 (amended): in every run (any sequence of collect calls sharing one
seen set, starting from the empty state), at most one record per stripped,
case-folded text is ever written: the entries of the sink have pairwise
distinct fingerprints, so whenever one of two byte-identical normalized
texts is written it is the first processed occurrence, and the other is
skipped.  ("Exactly one" fails when filters or the quota stop both.) -/
theorem claim1_run_dedup (calls : List (List Record × String × Nat)) :
    ((runCalls calls initState).sink).Pairwise
      (fun a b => fingerprint a ≠ fingerprint b) :=
  (run_sinkInv calls initState
    ⟨fun e he => absurd he (List.not_mem_nil e), List.Pairwise.nil⟩).2

/-- C2, counterexample: with byte_quota = 0 the call still writes the first
acceptable record (50 bytes), because the quota is only checked after each
accepted write; so bytes_written exceeds the quota and the sink is not
empty, contradicting the claim at this input. -/
theorem claim2_counterexample :
    0 < (write_streaming_dataset [recA50] "content" 0 initState).written ∧
      (write_streaming_dataset [recA50] "content" 0 initState).written = 50 ∧
      (write_streaming_dataset [recA50] "content" 0 initState).sink ≠ [] := by
  decide

/-- C2 (amended): bytes_written can exceed byte_quota, but only by the final
accepted write: when every record's cleaned text is at most B bytes and the
total is below the quota, the final total stays below byte_quota + B; and
with byte_quota = 0 the call writes at most one record (not none). -/
theorem claim2_quota_overshoot (ds : List Record) (field : String)
    (q B : Nat) (st : CState)
    (hB : ∀ r ∈ ds, utf8Len (cleanText ((recGet r field).getD [])) ≤ B) :
    (st.written < q →
        (write_streaming_dataset ds field q st).written < q + B) ∧
      (write_streaming_dataset ds field 0 ⟨st.sink, st.seen, 0, 0⟩).kept ≤ 1 :=
  ⟨fun hlt => written_overshoot ds field q B st hB hlt,
   kept_q0 ds field ⟨st.sink, st.seen, 0, 0⟩⟩

/-- C2, witness for the amended theorem at a concrete input. -/
theorem claim2_witness :
    (write_streaming_dataset [recA50] "content" 10 initState).written <
        10 + 50 ∧
      (write_streaming_dataset [recA50] "content" 0
        ⟨initState.sink, initState.seen, 0, 0⟩).kept ≤ 1 :=
  ⟨(claim2_quota_overshoot [recA50] "content" 10 50 initState (by decide)).1
      (by decide),
   (claim2_quota_overshoot [recA50] "content" 10 50 initState (by decide)).2⟩

/-- C3, counterexample: one accepted 50-character ASCII record adds exactly
50 to the running byte total, while the full write (text plus newline) is
51 bytes: the trailing newline is not counted, contrary to the claim. -/
theorem claim3_counterexample :
    (write_streaming_dataset [recA50] "content" 1000000000
        initState).written = 50 ∧
      utf8Len (cleanText (List.replicate 50 'a') ++ ['\n']) = 51 := by
  decide

/-- C3 (amended): for every accepted record the amount added to the running
byte total is the UTF-8 encoded length of the accepted text only — the
total grows by the sum of the texts' byte lengths, excluding the newline
separators, even though each full write is one byte longer. -/
theorem claim3_bytes_counted (ds : List Record) (field : String) (q : Nat)
    (st : CState) :
    (write_streaming_dataset ds field q st).written =
        st.written + ((newOut ds field q st).map utf8Len).sum ∧
      ∀ t : Text, utf8Len (t ++ ['\n']) = utf8Len t + 1 :=
  ⟨written_newOut ds field q st, fun t => by
    rw [utf8Len_append]
    have h1 : utf8Len ['\n'] = 1 := by decide
    rw [h1]⟩

/-- C4: never-write-after-quota.  The entries a call writes are
`newOut`, and every entry except the last leaves the running byte total
strictly below the quota: once the total reaches or exceeds byte_quota
after an accepted write, no further record is written in that call. -/
theorem claim4_no_write_after_quota (ds : List Record) (field : String)
    (q : Nat) (st : CState) (j : Nat) :
    (write_streaming_dataset ds field q st).sink =
        st.sink ++ newOut ds field q st ∧
      (j + 1 < (newOut ds field q st).length →
        st.written +
          (((newOut ds field q st).take (j + 1)).map utf8Len).sum < q) :=
  ⟨sink_newOut ds field q st, fun hj => quota_cross ds field q st j hj⟩

/-- C4, witness at a concrete input with two accepted records. -/
theorem claim4_witness :
    (write_streaming_dataset [recA50, recB50] "content" 1000 initState).sink =
        initState.sink ++ newOut [recA50, recB50] "content" 1000 initState ∧
      initState.written + (((newOut [recA50, recB50] "content" 1000
          initState).take (0 + 1)).map utf8Len).sum < 1000 :=
  ⟨(claim4_no_write_after_quota [recA50, recB50] "content" 1000 initState 0).1,
   (claim4_no_write_after_quota [recA50, recB50] "content" 1000 initState 0).2
     (by decide)⟩

/-- C5: the length filter is inclusive at both boundaries and counts
characters, not bytes: a single-record call keeps the record exactly when
its character count n satisfies MIN_CHARS ≤ n ≤ MAX_CHARS (so 49 and 50001
are rejected, 50 and 50000 accepted), for the one-byte character a and
equally for the two-byte character é, whose n-character text has 2n bytes. -/
theorem claim5_length_window (n q : Nat) :
    (write_streaming_dataset [[("content", List.replicate n 'a')]] "content"
          q initState).kept =
        (if MIN_CHARS ≤ n ∧ n ≤ MAX_CHARS then 1 else 0) ∧
      (write_streaming_dataset [[("content", List.replicate n 'é')]] "content"
          q initState).kept =
        (if MIN_CHARS ≤ n ∧ n ≤ MAX_CHARS then 1 else 0) ∧
      utf8Len (List.replicate n 'é') = 2 * n ∧
      utf8Len (List.replicate n 'a') = n :=
  ⟨kept_singleton_replicate 'a' (by decide) n q,
   kept_singleton_replicate 'é' (by decide) n q,
   by
    rw [utf8Len_replicate]
    have h2 : Char.utf8Size 'é' = 2 := by decide
    rw [h2, Nat.mul_comm],
   by
    rw [utf8Len_replicate]
    have h1 : Char.utf8Size 'a' = 1 := by decide
    rw [h1, Nat.mul_one]⟩

/-- C6: the file grows by each written entry's cleaned text followed by
exactly one newline; every entry is the original-case stripped text (CRLF
replaced by LF) of some record — never the case-folded normalized text —
is nonempty, and ends in a non-whitespace character, so the appended
newline is the single trailing newline of the entry. -/
theorem claim6_entry_format (ds : List Record) (field : String) (q : Nat)
    (st : CState) :
    fileContents (write_streaming_dataset ds field q st) =
        fileContents st ++
          ((newOut ds field q st).map (fun t => t ++ ['\n'])).flatten ∧
      ∀ e ∈ newOut ds field q st,
        (∃ r ∈ ds, ∃ t, recGet r field = some t ∧ e = cleanText t) ∧
          e ≠ [] ∧ ∃ c, e.getLast? = some c ∧ c.isWhitespace = false := by
  constructor
  · unfold fileContents
    rw [sink_newOut, List.map_append, List.flatten_append]
  · intro e he
    obtain ⟨r, hr, t, hget, hclean, hne⟩ := newOut_sound ds field q st e he
    refine ⟨⟨r, hr, t, hget, hclean⟩, hne, ?_⟩
    rw [hclean] at hne ⊢
    exact cleanText_getLast? t hne

/-- C6, witness at a concrete input. -/
theorem claim6_witness :
    (fileContents (write_streaming_dataset [recA50] "content" 1000
          initState) =
        fileContents initState ++
          ((newOut [recA50] "content" 1000 initState).map
            (fun t => t ++ ['\n'])).flatten) ∧
      ((∃ r ∈ [recA50], ∃ t, recGet r "content" = some t ∧
          List.replicate 50 'a' = cleanText t) ∧
        List.replicate 50 'a' ≠ [] ∧
        ∃ c, (List.replicate 50 'a').getLast? = some c ∧
          c.isWhitespace = false) :=
  ⟨(claim6_entry_format [recA50] "content" 1000 initState).1,
   (claim6_entry_format [recA50] "content" 1000 initState).2
     (List.replicate 50 'a') (by decide)⟩

/-- C7: a record that is skipped for any of the four reasons (missing
field, empty after stripping, length outside the window, duplicate
fingerprint) leaves the whole state — sink, seen set, byte total and
records_kept — unchanged, and the loop continues with the remaining
records; no error is raised (the function is total). -/
theorem claim7_skip_no_effect (r : Record) (rest : List Record)
    (field : String) (q : Nat) (st : CState)
    (h : recGet r field = none ∨
      ∃ t, recGet r field = some t ∧
        (cleanText t = [] ∨ (cleanText t).length < MIN_CHARS ∨
          MAX_CHARS < (cleanText t).length ∨
          fingerprint (cleanText t) ∈ st.seen)) :
    write_streaming_dataset (r :: rest) field q st =
      write_streaming_dataset rest field q st := by
  refine wsd_cons_none rest q ?_
  rcases h with h | ⟨t, hget, hcase⟩
  · unfold accepts passesFilters
    simp only [h]
  · rcases hcase with h4 | h4 | h4 | h4
    · have hp : passesFilters field r = none := by
        unfold passesFilters
        simp only [hget]
        rw [if_pos h4]
      unfold accepts
      rw [hp]
    · have hp : passesFilters field r = none := by
        unfold passesFilters
        simp only [hget]
        by_cases h1 : cleanText t = []
        · rw [if_pos h1]
        · rw [if_neg h1, if_pos h4]
      unfold accepts
      rw [hp]
    · have hp : passesFilters field r = none := by
        unfold passesFilters
        simp only [hget]
        by_cases h1 : cleanText t = []
        · rw [if_pos h1]
        · by_cases h2 : (cleanText t).length < MIN_CHARS
          · rw [if_neg h1, if_pos h2]
          · rw [if_neg h1, if_neg h2, if_pos h4]
      unfold accepts
      rw [hp]
    · by_cases h1 : cleanText t = []
      · have hp : passesFilters field r = none := by
          unfold passesFilters
          simp only [hget]
          rw [if_pos h1]
        unfold accepts
        rw [hp]
      · by_cases h2 : (cleanText t).length < MIN_CHARS
        · have hp : passesFilters field r = none := by
            unfold passesFilters
            simp only [hget]
            rw [if_neg h1, if_pos h2]
          unfold accepts
          rw [hp]
        · by_cases h3 : MAX_CHARS < (cleanText t).length
          · have hp : passesFilters field r = none := by
              unfold passesFilters
              simp only [hget]
              rw [if_neg h1, if_neg h2, if_pos h3]
            unfold accepts
            rw [hp]
          · have hp : passesFilters field r = some (cleanText t) := by
              unfold passesFilters
              simp only [hget]
              rw [if_neg h1, if_neg h2, if_neg h3]
            unfold accepts
            rw [hp]
            exact if_pos h4

/-- C7, witness: the record whose text field is three spaces, a newline and
two spaces is skipped (empty after stripping) and changes nothing. -/
theorem claim7_witness :
    write_streaming_dataset [wsRec] "text" 5 initState =
      write_streaming_dataset [] "text" 5 initState :=
  claim7_skip_no_effect wsRec [] "text" 5 initState
    (Or.inr ⟨[' ', ' ', ' ', '\n', ' ', ' '], by decide, Or.inl (by decide)⟩)

/-- C8: a single call whose filtered records have pairwise distinct, fresh
fingerprints and whose total accepted bytes stay below the quota writes
exactly the filtered texts, in input order, appended to the sink. -/
theorem claim8_order_preserved (ds : List Record) (field : String) (q : Nat)
    (st : CState)
    (hnd : ((acceptedTexts ds field).map fingerprint).Nodup)
    (hfresh : ∀ e ∈ acceptedTexts ds field, fingerprint e ∉ st.seen)
    (hq : st.written + ((acceptedTexts ds field).map utf8Len).sum < q) :
    (write_streaming_dataset ds field q st).sink =
      st.sink ++ acceptedTexts ds field := by
  rw [sink_newOut, newOut_no_truncation ds field q st hnd hfresh hq]

/-- C8, witness at a concrete two-record input. -/
theorem claim8_witness :
    (write_streaming_dataset [recA50, recB50] "content" 1000 initState).sink =
      initState.sink ++ acceptedTexts [recA50, recB50] "content" :=
  claim8_order_preserved [recA50, recB50] "content" 1000 initState
    (by decide) (by decide) (by decide)

/-- C9: the seen set grows monotonically — after any collect call (from any
intermediate state, so in particular after processing any record) and after
any whole run, the seen set contains every fingerprint it held before; no
operation removes a fingerprint. -/
theorem claim9_seen_monotone (ds : List Record) (field : String) (q : Nat)
    (st : CState) (calls : List (List Record × String × Nat)) :
    st.seen ⊆ (write_streaming_dataset ds field q st).seen ∧
      st.seen ⊆ (runCalls calls st).seen :=
  ⟨seen_mono ds field q st, run_seen_mono calls st⟩

/-- C9, witness: a pre-seeded fingerprint survives a call and a run. -/
theorem claim9_witness :
    List.replicate 50 'c' ∈
        (write_streaming_dataset [recA50] "content" 1000 seedSeen).seen ∧
      List.replicate 50 'c' ∈
        (runCalls [([recA50], "content", 1000)] seedSeen).seen :=
  ⟨(claim9_seen_monotone [recA50] "content" 1000 seedSeen
      [([recA50], "content", 1000)]).1 (by decide),
   (claim9_seen_monotone [recA50] "content" 1000 seedSeen
      [([recA50], "content", 1000)]).2 (by decide)⟩

/-- C10: one call's records_kept increment equals the number of entries it
wrote to the sink and the number of fingerprints it added to the seen set;
the seen set stays duplicate-free, so its size (as a set) grows by exactly
records_kept. -/
theorem claim10_counters (ds : List Record) (field : String) (q : Nat)
    (st : CState) :
    (write_streaming_dataset ds field q st).kept =
        st.kept + (newOut ds field q st).length ∧
      (write_streaming_dataset ds field q st).sink.length =
        st.sink.length + (newOut ds field q st).length ∧
      (write_streaming_dataset ds field q st).seen.length =
        st.seen.length + (newOut ds field q st).length ∧
      (st.seen.Nodup → (write_streaming_dataset ds field q st).seen.Nodup) :=
  ⟨kept_newOut ds field q st,
   by rw [sink_newOut, List.length_append],
   seenLen_newOut ds field q st,
   seen_nodup ds field q st⟩

/-- C10, witness at a concrete input. -/
theorem claim10_witness :
    (write_streaming_dataset [recA50] "content" 1000 initState).kept =
        initState.kept + (newOut [recA50] "content" 1000 initState).length ∧
      (write_streaming_dataset [recA50] "content" 1000 initState).sink.length =
        initState.sink.length +
          (newOut [recA50] "content" 1000 initState).length ∧
      (write_streaming_dataset [recA50] "content" 1000
          initState).seen.length =
        initState.seen.length +
          (newOut [recA50] "content" 1000 initState).length ∧
      (write_streaming_dataset [recA50] "content" 1000 initState).seen.Nodup :=
  ⟨(claim10_counters [recA50] "content" 1000 initState).1,
   (claim10_counters [recA50] "content" 1000 initState).2.1,
   (claim10_counters [recA50] "content" 1000 initState).2.2.1,
   (claim10_counters [recA50] "content" 1000 initState).2.2.2 (by decide)⟩

end CreateCorpus
